import Mathlib

/-!
Verification of the keyword-extraction core of the `sequel` repository:
the text chunker (`app/core/extractor.py`), the cross-chunk aggregation and
orchestration in `KeyBERTService` (`app/services/keybert_service.py`), and
the request-level n-gram validation (`app/schemas/extraction.py`).

Python strings are modelled as `List Char` (wrapped in `String` at the API
boundary), scores (Python floats) as `ℚ`, Python `int` parameters as `Int`
or `Nat` as the call site dictates, and the unbounded `while` loop of
`smart_split` with an explicit fuel parameter (`none` = fuel exhausted,
which any genuinely terminating run never produces for large enough fuel).
-/

/-- Equality on `Except` results is decidable componentwise (needed to
evaluate the embedded fallible functions on concrete inputs). -/
instance {ε α : Type} [DecidableEq ε] [DecidableEq α] : DecidableEq (Except ε α) :=
  fun x y =>
    match x, y with
    | .error e, .error f =>
      if h : e = f then .isTrue (by rw [h]) else .isFalse (by simp [h])
    | .ok a, .ok b =>
      if h : a = b then .isTrue (by rw [h]) else .isFalse (by simp [h])
    | .error _, .ok _ => .isFalse (by simp)
    | .ok _, .error _ => .isFalse (by simp)

namespace Sequel

/-- Python whitespace characters recognised by `str.strip()` / `str.split()`
(ASCII subset; the modelled inputs are ASCII). -/
def isPySpace (c : Char) : Bool :=
  c == ' ' || c == '\t' || c == '\n' || c == '\r' || c == '\x0c' || c == '\x0b'

/-- Horizontal whitespace, the class `[ \t\f\v]` of `normalize_whitespace`. -/
def isHorizWS (c : Char) : Bool :=
  c == ' ' || c == '\t' || c == '\x0c' || c == '\x0b'

/-- Python `str.strip()` on a character list. -/
def pyStripL (l : List Char) : List Char :=
  ((l.dropWhile isPySpace).reverse.dropWhile isPySpace).reverse

/-- Python `str.lower()` (ASCII). -/
def pyLowerL (l : List Char) : List Char := l.map Char.toLower

/-- Python `str.split()` with no argument: maximal runs of non-whitespace. -/
def pySplitL : List Char → List (List Char)
  | [] => []
  | c :: rest =>
    if isPySpace c then pySplitL rest
    else match pySplitL rest with
      | [] => [[c]]
      | w :: ws =>
        match rest with
        | [] => [[c]]
        | d :: _ => if isPySpace d then [c] :: w :: ws else (c :: w) :: ws

/-- Word count of a surface form: `len(kw.split())`. -/
def wordCount (s : List Char) : Nat := (pySplitL s).length

/-- The state used to fold `re.sub(r"[ \t\f\v]+", " ", text)`: the Bool says
whether the previous character was part of a horizontal-whitespace run. -/
def collapseAux : Bool → List Char → List Char
  | _, [] => []
  | inRun, c :: rest =>
    if isHorizWS c then
      if inRun then collapseAux true rest else ' ' :: collapseAux true rest
    else c :: collapseAux false rest

/-- Embeds `re.sub(r"[ \t\f\v]+", " ", text)`: collapse horizontal-whitespace runs
to a single space. -/
def collapseHoriz (l : List Char) : List Char := collapseAux false l

/-- Python `text.replace("\r\n", "\n")`. -/
def replaceCRLF : List Char → List Char
  | '\r' :: '\n' :: rest => '\n' :: replaceCRLF rest
  | c :: rest => c :: replaceCRLF rest
  | [] => []

/-- Embeds `TextChunker.normalize_whitespace`: collapse horizontal whitespace,
unify CRLF line endings, strip. -/
def normalizeWhitespaceL (l : List Char) : List Char :=
  pyStripL (replaceCRLF (collapseHoriz l))

/-- The `TextChunker.normalize_whitespace` method at the string level. -/
def normalize_whitespace (s : String) : String :=
  String.mk (normalizeWhitespaceL s.data)

/-- Embeds `TextChunker.estimate_pages`: `char_count / max(approx_chars_per_page, 1)`
(exact rational in place of the Python float division). -/
def estimate_pages (char_count : Nat) (approx_chars_per_page : Nat) : ℚ :=
  (char_count : ℚ) / ((max approx_chars_per_page 1 : Nat) : ℚ)

/-- The boundary character class `[ \n.!?:;,]` of `smart_split`. -/
def boundaryChar (c : Char) : Bool :=
  c == ' ' || c == '\n' || c == '.' || c == '!' || c == '?' ||
  c == ':' || c == ';' || c == ','

/-- Python slice `l[a:b]` for `0 ≤ a ≤ b` (empty when `a ≥ b`). -/
def slice (l : List Char) (a b : Nat) : List Char := (l.drop a).take (b - a)

/-- Index (within the slice) of the first boundary character, as found by
`re.search(r"[ \n\.\!\?\:\;\,]", s)`. -/
def findBoundary (l : List Char) : Option Nat := l.findIdx? boundaryChar

/-- Index (within the slice) of the last boundary character.  The source
regex `[ \n\.\!\?\:\;\,](?!.*[ \n\.\!\?\:\;\,])` matches exactly the last
boundary character of the slice: a newline is itself in the class, so for
any earlier boundary the lookahead `.*[...]` always reaches either a later
same-line boundary or the line's terminating newline. -/
def findLastBoundary (l : List Char) : Option Nat :=
  match l.reverse.findIdx? boundaryChar with
  | some j => some (l.length - 1 - j)
  | none => none

/-- One emitted (or skipped) window of `smart_split`: the span
`[s, e)` in the normalized text and the stripped chunk content. -/
structure Span where
  s : Nat
  e : Nat
  chunk : List Char
deriving DecidableEq, Repr

/-- The `best_end` computation of one `smart_split` loop iteration.

Faithfulness notes, keyed to the source:
* `end = min(start + chunk_size, n)`;
* forward search over `text[end:min(end+200, n)]`; the acceptance test
  `cand - start >= chunk_size * 0.6` is rendered as
  `5 * (cand - start) ≥ 3 * cs` (for the relevant parameter range the
  float product `chunk_size * 0.6` compares to an integer exactly like
  the rational `3·cs/5`, whose fractional part is a multiple of 1/5);
* the backward search runs whenever `best_end == end` holds by value —
  including when a forward boundary was found exactly at `end`;
* `window_start = max(start + int(chunk_size * 0.6), start)`, with
  `int(chunk_size * 0.6) = ⌊3·cs/5⌋` rendered as Nat division. -/
def chooseEnd (text : List Char) (cs : Nat) (start : Nat) : Nat :=
  let n := text.length
  let endP := min (start + cs) n
  let windowEnd := min (endP + 200) n
  let bestEnd0 :=
    match findBoundary (slice text endP windowEnd) with
    | some j =>
      let cand := endP + j
      if 5 * (cand - start) ≥ 3 * cs then cand else endP
    | none => endP
  if bestEnd0 = endP then
    let ws := max (start + (3 * cs) / 5) start
    match findLastBoundary (slice text ws endP) with
    | some j => ws + j
    | none => bestEnd0
  else bestEnd0

/-- The `while start < n` loop of `TextChunker.smart_split`, instrumented to
also return each emitted chunk's span.  Spans whose stripped content is
empty are not emitted (`if chunk: chunks.append(chunk)`).  `none` means the
fuel ran out before the loop finished.  The next start offset
`start = max(0, best_end - overlap)` is `((best_end : Int) - ov).toNat`. -/
def smartSplitLoop (text : List Char) (cs : Nat) (ov : Int) :
    Nat → Nat → Option (List Span)
  | _, 0 => none
  | start, fuel + 1 =>
    let n := text.length
    if start < n then
      let bestEnd := chooseEnd text cs start
      let chunk := pyStripL (slice text start bestEnd)
      let here := if chunk.isEmpty then ([] : List Span) else [⟨start, bestEnd, chunk⟩]
      if bestEnd ≥ n then some here
      else
        match smartSplitLoop text cs ov (((bestEnd : Int) - ov).toNat) fuel with
        | some rest => some (here ++ rest)
        | none => none
    else some []

/-- Embeds `TextChunker.smart_split`, span-instrumented: validation of
`chunk_size`/`overlap`, whitespace normalization, empty short-circuit,
then the chunking loop. -/
def smartSplitSpans (t : String) (chunk_size overlap : Int) (fuel : Nat) :
    Except String (Option (List Span)) :=
  if chunk_size ≤ 0 then .error "chunk_size must be > 0"
  else if overlap ≥ chunk_size then .error "overlap must be smaller than chunk_size"
  else
    let text := normalizeWhitespaceL t.data
    if text.length = 0 then .ok (some [])
    else .ok (smartSplitLoop text chunk_size.toNat overlap 0 fuel)

/-- Embeds `TextChunker.smart_split`: the list of chunk strings. -/
def smart_split (t : String) (chunk_size overlap : Int) (fuel : Nat) :
    Except String (Option (List String)) :=
  (smartSplitSpans t chunk_size overlap fuel).map
    (Option.map (List.map (fun sp => String.mk sp.chunk)))

/-! ## Schemas (`app/schemas/extraction.py`) -/

/-- Schema `ChunkAggregationEnum`. -/
inductive Agg where
  | max
  | mean
  | sum
deriving DecidableEq, Repr

/-- Schema `LanguageEnum`. -/
inductive Lang where
  | de
  | en
  | auto
deriving DecidableEq, Repr

/-- Schema `TitleConfig` (weight is a Python float, modelled as `ℚ`). -/
structure TitleConfig where
  text : String
  weight : ℚ
  normalize : Bool
deriving DecidableEq, Repr

/-- Schema `ChunkingConfig`. -/
structure ChunkingConfig where
  enable_chunking : Bool
  max_pages : Nat
  approx_chars_per_page : Nat
  chunk_size_chars : Nat
  chunk_overlap_chars : Nat
  candidate_pool_multiplier : ℚ
  aggregation : Agg
deriving DecidableEq, Repr

/-- Schema `KeywordResult`. -/
structure KeywordResult where
  keyword : String
  score : ℚ
  ngram_size : Nat
deriving DecidableEq, Repr

/-- Schema `KeywordExtractionRequest` (the fields the orchestrator reads;
`text_type` is kept as the raw enum string it echoes into metadata). -/
structure Request where
  text : String
  language : Lang
  max_keywords : Nat
  text_type : String
  use_mmr : Bool
  diversity : ℚ
  ngram_range : Option (Nat × Nat)
  min_ngram : Option Nat
  max_ngram : Option Nat
  include_metadata : Bool
  title_config : Option TitleConfig
  chunking : ChunkingConfig
  request_id : Option String
deriving DecidableEq, Repr

/-- The `validate_ngram_range` pydantic validator: reject an explicit
`ngram_range` pair whose first component exceeds its second. -/
def validate_ngram_range (v : Option (Nat × Nat)) :
    Except String (Option (Nat × Nat)) :=
  match v with
  | some p =>
    if p.1 > p.2 then .error "ngram_range must be (min, max) with min <= max"
    else .ok v
  | none => .ok v

/-- The n-gram derivation of `KeyBERTService.extract` (lines 89-98):
an explicit `ngram_range` wins; otherwise `min_ngram`/`max_ngram` are
filled with defaults and silently swapped when out of order; otherwise
the default `(1, 2)`.  (`conint(ge=1)` makes present fields truthy.) -/
def deriveNgramRange (ngram_range : Option (Nat × Nat))
    (min_ngram max_ngram : Option Nat) : Nat × Nat :=
  match ngram_range with
  | some r => r
  | none =>
    if min_ngram.isSome || max_ngram.isSome then
      let mn := min_ngram.getD 1
      let mx := max_ngram.getD mn
      if mn > mx then (mx, mn) else (mn, mx)
    else (1, 2)

/-- What the system does to an n-gram configuration end to end: pydantic
validation of the `ngram_range` field at request construction, then the
service-side derivation. -/
def requestNgramOutcome (ngram_range : Option (Nat × Nat))
    (min_ngram max_ngram : Option Nat) : Except String (Nat × Nat) :=
  (validate_ngram_range ngram_range).map
    (fun v => deriveNgramRange v min_ngram max_ngram)

/-! ## Aggregation (`KeyBERTService._extract_from_chunks`) -/

/-- The merge key of a candidate surface form: `kw.lower().strip()`. -/
def normKey (s : List Char) : List Char := pyStripL (pyLowerL s)

/-- One step of the accumulator loop
`accumulator[key].append(float(score))`: a Python dict is
insertion-ordered, so it is modelled as an association list whose keys
appear in first-insertion order. -/
def addCand (acc : List (List Char × List ℚ)) (cand : List Char × ℚ) :
    List (List Char × List ℚ) :=
  let key := normKey cand.1
  if (acc.lookup key).isSome then
    acc.map (fun p => if p.1 = key then (p.1, p.2 ++ [cand.2]) else p)
  else acc ++ [(key, [cand.2])]

/-- The accumulator after all per-chunk candidate lists have been folded
in, in arrival order. -/
def accumulate (perWindow : List (List (List Char × ℚ))) :
    List (List Char × List ℚ) :=
  perWindow.flatten.foldl addCand []

/-- The `combine` closure: `max(scores)`, `sum(scores)/len(scores)` or
`sum(scores)`, with `0.0` for an empty list. -/
def combine (agg : Agg) (scores : List ℚ) : ℚ :=
  match scores, agg with
  | [], _ => 0
  | h :: t, .max => t.foldl Max.max h
  | h :: t, .mean => (h :: t).sum / ((h :: t).length : ℚ)
  | h :: t, .sum => (h :: t).sum

/-- Stable insertion (descending by score) used to model
`combined.sort(key=lambda x: x[1], reverse=True)`: Python's sort is
stable, so an element is placed after every already-present element whose
score is at least its own.  Folding `insertDesc` over the list from the
left therefore yields exactly the stable descending sort: score classes
in descending order, each class in arrival order. -/
def insertDesc (x : List Char × ℚ) :
    List (List Char × ℚ) → List (List Char × ℚ)
  | [] => [x]
  | y :: ys => if x.2 > y.2 then x :: y :: ys else y :: insertDesc x ys

/-- Embeds `combined.sort(key=lambda x: x[1], reverse=True)` (stable). -/
def sortByScoreDesc (l : List (List Char × ℚ)) : List (List Char × ℚ) :=
  l.foldl (fun acc x => insertDesc x acc) []

/-- The aggregation pipeline of `_extract_from_chunks` applied to the
per-chunk raw candidate lists: accumulate case-folded keys, combine each
key's scores, sort by combined score descending (stable), truncate to
`max_keywords`, and build `KeywordResult`s whose keyword is the merge key
and whose `ngram_size` is `len(kw.split())`. -/
def aggregateCandidates (perWindow : List (List (List Char × ℚ)))
    (agg : Agg) (max_keywords : Nat) : List KeywordResult :=
  let combined := (accumulate perWindow).map (fun p => (p.1, combine agg p.2))
  ((sortByScoreDesc combined).take max_keywords).map
    (fun p => ⟨String.mk p.1, p.2, wordCount p.1⟩)

/-- A scorer invocation result: the black-box
`self._backend.extract_keywords(window, ..., top_n=topN, ...)`, modelled
as a function of the window text and `top_n` (the remaining keyword
arguments are fixed per request and forwarded verbatim, so they are
absorbed into the function). -/
def Scorer : Type := String → Nat → List (String × ℚ)

/-- Embeds `per_chunk_topn = max(10, int(max_keywords * candidate_pool_multiplier))`
(`int(·)` truncates; both factors are nonnegative, so it is the floor). -/
def perChunkTopN (max_keywords : Nat) (candidate_pool_multiplier : ℚ) : Nat :=
  max 10 (⌊(max_keywords : ℚ) * candidate_pool_multiplier⌋).toNat

/-- Embeds `KeyBERTService._extract_from_chunks`: score every chunk with the
inflated per-chunk budget, then aggregate. -/
def extract_from_chunks (scorer : Scorer) (chunks : List String)
    (max_keywords : Nat) (agg : Agg) (candidate_pool_multiplier : ℚ) :
    List KeywordResult :=
  aggregateCandidates
    (chunks.map (fun ch =>
      (scorer ch (perChunkTopN max_keywords candidate_pool_multiplier)).map
        (fun c => (c.1.data, c.2))))
    agg max_keywords

/-- Embeds `KeyBERTService._extract_single`: one scorer call over the whole text,
keywords returned verbatim. -/
def extract_single (scorer : Scorer) (text : String) (max_keywords : Nat) :
    List KeywordResult :=
  (scorer text max_keywords).map (fun c => ⟨c.1, c.2, wordCount c.1.data⟩)

/-! ## Title weighting and orchestration (`KeyBERTService.extract`) -/

/-- Embeds `KeyBERTService._apply_title_weighting` (the service method). -/
def apply_title_weighting (text : String) (config : TitleConfig) : String :=
  if config.text = "" then text
  else
    let weight := if config.normalize then max 1 (min 5 config.weight) else config.weight
    let repeats := (max 1 ⌈weight⌉).toNat
    String.mk ((List.replicate repeats (pyStripL config.text.data ++ ['\n'])).flatten
      ++ text.data)

/-- The title-weighting step of `extract` (lines 80-83): the helper is
only invoked when a config with truthy (non-empty) title text is present. -/
def titleStep (text : String) (config : Option TitleConfig) : String :=
  match config with
  | some c => if c.text ≠ "" then apply_title_weighting text c else text
  | none => text

/-- Embeds `KeyBERTService._resolve_stop_words`. -/
def resolve_stop_words : Lang → Option String
  | .de => none
  | .en => some "english"
  | .auto => some "english"

/-- The processing metadata assembled by `extract` when
`include_metadata` is set.  The wall-clock `processing_time_ms` and the
environment-supplied `model`/`device` settings strings are outside the
model; every other recorded field is present. -/
structure Metadata where
  text_type : String
  use_mmr : Bool
  diversity : ℚ
  ngram_range : Nat × Nat
  stop_words : Option String
  chunking_enabled : Bool
  approx_pages : ℚ
  chunk_size_chars : Nat
  chunk_overlap_chars : Nat
  aggregation : Agg
deriving DecidableEq, Repr

/-- Schema `KeywordExtractionResponse`. -/
structure Response where
  request_id : Option String
  keywords : List KeywordResult
  total_keywords_found : Nat
  text_length : Nat
  language : Lang
  processing_metadata : Option Metadata
deriving DecidableEq, Repr

/-- The text after title weighting, as computed by `extract` before the
page-limit check. -/
def weightedText (req : Request) : String :=
  titleStep req.text req.title_config

/-- The page-limit enforcement of `extract` (lines 119-131): if the
estimated page count exceeds `max_pages`, truncate to
`max_pages * approx_chars_per_page` characters. -/
def truncatedText (req : Request) : String :=
  let text := weightedText req
  if estimate_pages text.length req.chunking.approx_chars_per_page
      > (req.chunking.max_pages : ℚ) then
    String.mk (text.data.take (req.chunking.max_pages * req.chunking.approx_chars_per_page))
  else text

/-- Embeds `KeyBERTService.extract`: title weighting, stop-word resolution,
n-gram derivation, page-limit truncation, the chunk-or-single-shot
decision, and response assembly.  The `Except` layer carries
`smart_split`'s contract errors; the inner `Option` is `none` only when
the chunking loop's fuel runs out. -/
def extract (scorer : Scorer) (req : Request) (fuel : Nat) :
    Except String (Option Response) :=
  let stop_words := resolve_stop_words req.language
  let ngram := deriveNgramRange req.ngram_range req.min_ngram req.max_ngram
  let text := truncatedText req
  let char_len := text.length
  let approx_pages := estimate_pages char_len req.chunking.approx_chars_per_page
  let mkResponse : List KeywordResult → Response := fun results =>
    { request_id := req.request_id
      keywords := results
      total_keywords_found := results.length
      text_length := req.text.length
      language := req.language
      processing_metadata :=
        if req.include_metadata then
          some { text_type := req.text_type
                 use_mmr := req.use_mmr
                 diversity := req.diversity
                 ngram_range := ngram
                 stop_words := stop_words
                 chunking_enabled := req.chunking.enable_chunking
                 approx_pages := approx_pages
                 chunk_size_chars := req.chunking.chunk_size_chars
                 chunk_overlap_chars := req.chunking.chunk_overlap_chars
                 aggregation := req.chunking.aggregation }
        else none }
  if req.chunking.enable_chunking ∧ char_len > req.chunking.chunk_size_chars then
    match smart_split text req.chunking.chunk_size_chars req.chunking.chunk_overlap_chars fuel with
    | .error e => .error e
    | .ok none => .ok none
    | .ok (some chunks) =>
      .ok (some (mkResponse (extract_from_chunks scorer chunks req.max_keywords
        req.chunking.aggregation req.chunking.candidate_pool_multiplier)))
  else
    .ok (some (mkResponse (extract_single scorer text req.max_keywords)))

/-! ## Specification-side definitions, used to state the claims -/

/-- All scores observed for a merge key across all windows, in traversal
order (the spec's "all scores observed for that key across all windows"). -/
def observedScores (perWindow : List (List (List Char × ℚ))) (key : List Char) :
    List ℚ :=
  perWindow.flatten.filterMap (fun c => if normKey c.1 = key then some c.2 else none)

/-- The scores contributed to a key by a candidate list, in order. -/
def scoresOf (key : List Char) (cands : List (List Char × ℚ)) : List ℚ :=
  cands.filterMap (fun c => if normKey c.1 = key then some c.2 else none)

/-- Merging an already-present accumulator value with newly contributed
scores (`none` = key absent). -/
def joinOpt : Option (List ℚ) → List ℚ → Option (List ℚ)
  | some l, s => some (l ++ s)
  | none, [] => none
  | none, s => some s

/-- The output order claimed by the spec: combined score descending, ties
broken by shorter n-gram size first, then lexicographically ascending on
the surface form. -/
def specLE (a b : KeywordResult) : Bool :=
  (b.score < a.score) ||
  (a.score = b.score &&
    (a.ngram_size < b.ngram_size ||
      (a.ngram_size = b.ngram_size && a.keyword ≤ b.keyword)))

/-- Whether a result list is ordered as the spec's sorting sentence claims. -/
def specSortedB : List KeywordResult → Bool
  | [] => true
  | [_] => true
  | a :: b :: t => specLE a b && specSortedB (b :: t)

/-- Modelled from the spec: the TitleWeighter contract of §4.1, stated in
the spec's own words — `weight = normalize ? clamp(weight, 1.0, 5.0) :
weight`, `repeats = max(1, ceil(weight))`, result
`((title.trim() + "\n") repeated repeats times) ++ text` flagged `true`,
and `(text, false)` unchanged when the config is absent or its title text
is empty. -/
def specTitleWeighted (text : String) (config : Option TitleConfig) :
    String × Bool :=
  match config with
  | none => (text, false)
  | some c =>
    if c.text = "" then (text, false)
    else
      let w := if c.normalize then max 1 (min 5 c.weight) else c.weight
      let repeats := (max 1 ⌈w⌉).toNat
      (String.mk ((List.replicate repeats (pyStripL c.text.data ++ ['\n'])).flatten
        ++ text.data), true)

/-- A scorer returning no candidates (degenerate but legal per the scorer
contract), used for concrete end-to-end runs of `extract`. -/
def nullScorer : Scorer := fun _ _ => []

/-- A concrete request whose 501-character text estimates to 501/500 pages,
exceeding the one-page limit (all numeric fields satisfy the schema's
bounds; chunking is disabled so the single-shot path runs). -/
def longRequest : Request :=
  { text := String.mk (List.replicate 501 'a')
    language := .en
    max_keywords := 10
    text_type := "generic"
    use_mmr := true
    diversity := 1
    ngram_range := none
    min_ngram := none
    max_ngram := none
    include_metadata := true
    title_config := none
    chunking := ⟨false, 1, 500, 1200, 200, 3, .max⟩
    request_id := none }

/-- The same request carrying the already-truncated 500-character text,
which estimates to exactly one page and is not truncated. -/
def truncRequest : Request :=
  { longRequest with text := String.mk (List.replicate 500 'a') }

/-! ## Helper lemmas -/

theorem dropWhile_dropWhile (p : Char → Bool) (l : List Char) :
    (l.dropWhile p).dropWhile p = l.dropWhile p := by
  induction l with
  | nil => rfl
  | cons c t ih =>
    by_cases h : p c
    · simpa [List.dropWhile_cons, h] using ih
    · simp [List.dropWhile_cons, h]

theorem rstrip_head? (l : List Char) (hne : (pyStripL l) ≠ []) :
    (pyStripL l).head? = (l.dropWhile isPySpace).head? := by
  obtain ⟨t, ht⟩ := List.dropWhile_suffix (l := (l.dropWhile isPySpace).reverse) isPySpace
  have hm : l.dropWhile isPySpace = pyStripL l ++ t.reverse := by
    have h2 := congrArg List.reverse ht
    rw [List.reverse_append, List.reverse_reverse] at h2
    rw [← h2]
    rfl
  rw [hm, List.head?_append_of_ne_nil _ hne]

theorem pyStripL_pyStripL (l : List Char) :
    pyStripL (pyStripL l) = pyStripL l := by
  rcases hne : pyStripL l with _ | ⟨c, r⟩
  · rfl
  · have hh : (pyStripL l).head? = (l.dropWhile isPySpace).head? :=
      rstrip_head? l (by rw [hne]; simp)
    have hcp : isPySpace c = false := by
      have := List.head?_dropWhile_not isPySpace l
      rw [← hh, hne] at this
      simpa using this
    show pyStripL (c :: r) = c :: r
    unfold pyStripL
    rw [List.dropWhile_cons_of_neg (by simp [hcp])]
    have hr := dropWhile_dropWhile isPySpace ((l.dropWhile isPySpace).reverse)
    calc ((c :: r).reverse.dropWhile isPySpace).reverse
        = ((pyStripL l).reverse.dropWhile isPySpace).reverse := by rw [hne]
      _ = c :: r := by
          unfold pyStripL
          rw [List.reverse_reverse, hr, ← pyStripL, hne]

theorem pyStripL_eq_nil_iff (l : List Char) :
    pyStripL l = [] ↔ ∀ c ∈ l, isPySpace c = true := by
  unfold pyStripL
  constructor
  · intro h c hc
    have h2 : (l.dropWhile isPySpace).reverse.dropWhile isPySpace = [] := by
      simpa using h
    rw [List.dropWhile_eq_nil_iff] at h2
    rw [← List.takeWhile_append_dropWhile isPySpace l] at hc
    rcases List.mem_append.mp hc with h3 | h3
    · exact List.mem_takeWhile_imp h3
    · exact h2 c (List.mem_reverse.mpr h3)
  · intro h
    have h2 : l.dropWhile isPySpace = [] :=
      List.dropWhile_eq_nil_iff.mpr h
    simp [h2]

theorem pyStripL_normalize (l : List Char) :
    pyStripL (normalizeWhitespaceL l) = normalizeWhitespaceL l := by
  unfold normalizeWhitespaceL
  exact pyStripL_pyStripL _

/-- Characters of a slice belong to the original list segment. -/
theorem getElem_mem_slice (l : List Char) (a b i : Nat) (ha : a ≤ i) (hb : i < b)
    (hl : i < l.length) : l[i] ∈ slice l a b := by
  have h1 : i - a < (l.drop a).length := by
    rw [List.length_drop]; omega
  have h2 : i - a < b - a := by omega
  have h3 : i - a < ((l.drop a).take (b - a)).length := by
    rw [List.length_take]; omega
  have h4 : ((l.drop a).take (b - a))[i - a] = l[i] := by
    rw [List.getElem_take, List.getElem_drop]
    congr 1
    omega
  rw [slice, ← h4]
  exact List.getElem_mem h3

/-! ## C7: `smart_split` raises exactly on contract violations -/

/-- C7: `smart_split` raises an error if and only if `chunk_size ≤ 0` or
`overlap ≥ chunk_size`; with valid parameters it never raises (a fuel-out
`none` is not a raise). -/
theorem C7_split_error_iff (t : String) (chunk_size overlap : Int) (fuel : Nat) :
    (∃ e, smart_split t chunk_size overlap fuel = .error e) ↔
      chunk_size ≤ 0 ∨ overlap ≥ chunk_size := by
  unfold smart_split smartSplitSpans
  by_cases h1 : chunk_size ≤ 0
  · simp [h1, Except.map]
  · by_cases h2 : overlap ≥ chunk_size
    · simp [h1, h2, Except.map]
    · by_cases h3 : (normalizeWhitespaceL t.data).length = 0 <;>
        simp [h1, h2, h3, Except.map]

/-! ## C3: the chunking loop need not terminate -/

theorem loop_stuck_dot : ∀ fuel, smartSplitLoop ['.'] 1 0 0 fuel = none := by
  intro fuel
  induction fuel with
  | zero => rfl
  | succ n ih =>
    show smartSplitLoop ['.'] 1 0 0 (n + 1) = none
    unfold smartSplitLoop
    have hce : chooseEnd ['.'] 1 0 = 0 := by decide
    simp only [hce, List.length_cons, List.length_nil]
    norm_num
    rw [ih]

/-- C3: with `chunk_size = 1`, `overlap = 0` (both satisfying the stated
preconditions) and input ".", the loop recomputes `best_end = 0` and
`start = max(0, 0 - 0) = 0` forever: no amount of fuel makes `smart_split`
return, so the Python original never terminates on this input.  (The same
stagnation occurs for production-sized parameters, e.g.
`chunk_size = 400`, `overlap = 350` on a text whose only boundary
character sits 240 characters into a 641-character text.) -/
theorem C3_nonterminating_split :
    ∀ fuel, smart_split "." 1 0 fuel = .ok none := by
  intro fuel
  unfold smart_split smartSplitSpans
  have hn : normalizeWhitespaceL ".".data = ['.'] := by decide
  rw [if_neg (by decide), if_neg (by decide), hn]
  simp only [List.length_cons, List.length_nil]
  rw [if_neg (by decide), show Int.toNat 1 = 1 from rfl, loop_stuck_dot fuel]
  rfl

/-! ## C2: the claimed single-window short-circuit -/

/-- When the whole text fits in one chunk and no boundary character occurs
at or past offset `⌊0.6·chunk_size⌋`, the first iteration keeps the full
text: the forward search sees an empty slice and the backward search finds
nothing. -/
theorem chooseEnd_eq_length (text : List Char) (cs : Nat)
    (hlen : text.length ≤ cs)
    (hb : ∀ c ∈ text.drop ((3 * cs) / 5), boundaryChar c = false) :
    chooseEnd text cs 0 = text.length := by
  unfold chooseEnd
  have hend : min (0 + cs) text.length = text.length := by omega
  have hwin : min (text.length + 200) text.length = text.length := by omega
  have hfw : findBoundary (slice text text.length text.length) = none := by
    unfold findBoundary slice
    simp
  have hws : max (0 + (3 * cs) / 5) 0 = (3 * cs) / 5 := by omega
  have hbw : findLastBoundary (slice text ((3 * cs) / 5) text.length) = none := by
    unfold findLastBoundary
    rw [List.findIdx?_eq_none_iff.mpr]
    intro x hx
    exact hb x (List.mem_of_mem_take (List.mem_reverse.mp hx))
  simp only [hend, hwin, hfw, hws, hbw]
  simp

/-- C2 (amended): if additionally no boundary character occurs at or past
offset `⌊0.6·chunk_size⌋` of the normalized text, `split` returns exactly
one window equal to the normalized input. -/
theorem C2_single_window (t : String) (chunk_size overlap : Int) (fuel : Nat)
    (hcs : 0 < chunk_size) (hov : overlap < chunk_size)
    (hlen : (normalizeWhitespaceL t.data).length ≤ chunk_size.toNat)
    (hne : normalizeWhitespaceL t.data ≠ [])
    (hb : ∀ c ∈ (normalizeWhitespaceL t.data).drop ((3 * chunk_size.toNat) / 5),
      boundaryChar c = false) :
    smart_split t chunk_size overlap (fuel + 1) =
      .ok (some [normalize_whitespace t]) := by
  unfold smart_split smartSplitSpans
  rw [if_neg (by omega), if_neg (by omega),
    if_neg (fun h => hne (List.length_eq_zero.mp h))]
  have hsl : slice (normalizeWhitespaceL t.data) 0
      (normalizeWhitespaceL t.data).length = normalizeWhitespaceL t.data := by
    unfold slice
    simp
  have hloop : smartSplitLoop (normalizeWhitespaceL t.data) chunk_size.toNat overlap 0
      (fuel + 1) = some [⟨0, (normalizeWhitespaceL t.data).length,
        normalizeWhitespaceL t.data⟩] := by
    unfold smartSplitLoop
    simp only [chooseEnd_eq_length _ _ hlen hb, hsl, pyStripL_normalize,
      List.length_pos.mpr hne, if_true, le_refl, ge_iff_le]
    simp [hne]
  rw [hloop]
  rfl

/-- C2 witness: a concrete instance of the amended theorem. -/
theorem C2_single_window_witness :
    smart_split "hello world" 50 10 1 = .ok (some ["hello world"]) :=
  C2_single_window "hello world" 50 10 0 (by decide) (by decide) (by decide)
    (by decide) (by decide)

/-- C2 counterexample: `"abcde fgh"` has normalized length 9 ≤ chunk size 9,
yet `split` cuts at the backward boundary (the space at offset 5, inside the
backward window that starts at `⌊0.6·9⌋ = 5`) and returns two windows, not
one window equal to the normalized input. -/
theorem C2_counterexample :
    (normalize_whitespace "abcde fgh" = "abcde fgh") ∧
    ("abcde fgh".length ≤ 9) ∧
    smart_split "abcde fgh" 9 0 20 = .ok (some ["abcde", "fgh"]) ∧
    smart_split "abcde fgh" 9 0 20 ≠ .ok (some ["abcde fgh"]) := by
  refine ⟨by decide, by decide, by decide, by decide⟩

/-! ## C5: chunk coverage -/

/-- The loop invariant behind coverage: every offset at or after the
current start either falls in some returned span, or its character is
whitespace (it was part of a chunk whose stripped content was empty and
which was therefore never emitted). -/
theorem loop_coverage (text : List Char) (cs : Nat) (ov : Int) (hov : 0 ≤ ov) :
    ∀ fuel start spans, smartSplitLoop text cs ov start fuel = some spans →
      ∀ i, start ≤ i → i < text.length →
        (∃ sp ∈ spans, sp.s ≤ i ∧ i < sp.e) ∨
          isPySpace (text.getD i 'x') = true := by
  intro fuel
  induction fuel with
  | zero => intro start spans hloop; exact absurd hloop (by simp [smartSplitLoop])
  | succ n ih =>
    intro start spans hloop i h1 h2
    unfold smartSplitLoop at hloop
    by_cases hst : start < text.length
    · rw [if_pos hst] at hloop
      simp only at hloop
      have hgd : text.getD i 'x' = text[i] := List.getD_eq_getElem text 'x' h2
      have hmem : i < chooseEnd text cs start →
          (pyStripL (slice text start (chooseEnd text cs start)) = [] →
            isPySpace (text.getD i 'x') = true) := by
        intro hib hempty
        rw [hgd]
        exact (pyStripL_eq_nil_iff _).mp hempty _
          (getElem_mem_slice text start (chooseEnd text cs start) i h1 hib h2)
      by_cases hbn : chooseEnd text cs start ≥ text.length
      · rw [if_pos hbn] at hloop
        have hib : i < chooseEnd text cs start := by omega
        by_cases hch : (pyStripL (slice text start (chooseEnd text cs start))).isEmpty
        · right
          exact hmem hib (List.isEmpty_iff.mp hch)
        · left
          rw [if_neg hch] at hloop
          refine ⟨⟨start, chooseEnd text cs start,
            pyStripL (slice text start (chooseEnd text cs start))⟩, ?_, h1, hib⟩
          rw [← Option.some_inj.mp hloop]
          simp
      · rw [if_neg hbn] at hloop
        rcases hrec : smartSplitLoop text cs ov (((chooseEnd text cs start : Int) - ov).toNat) n
          with _ | rest
        · rw [hrec] at hloop; exact absurd hloop (by simp)
        · rw [hrec] at hloop
          have hspans : spans =
              (if (pyStripL (slice text start (chooseEnd text cs start))).isEmpty
                then [] else [⟨start, chooseEnd text cs start,
                  pyStripL (slice text start (chooseEnd text cs start))⟩]) ++ rest :=
            (Option.some_inj.mp hloop).symm
          by_cases hib : i < chooseEnd text cs start
          · by_cases hch : (pyStripL (slice text start (chooseEnd text cs start))).isEmpty
            · right
              exact hmem hib (List.isEmpty_iff.mp hch)
            · left
              refine ⟨⟨start, chooseEnd text cs start,
                pyStripL (slice text start (chooseEnd text cs start))⟩, ?_, h1, hib⟩
              rw [hspans, if_neg hch]
              simp
          · have hstart : ((chooseEnd text cs start : Int) - ov).toNat ≤ i := by
              have : ((chooseEnd text cs start : Int) - ov).toNat ≤ chooseEnd text cs start := by
                omega
              omega
            rcases ih _ rest hrec i hstart h2 with ⟨sp, hsp, hle⟩ | hws
            · left
              exact ⟨sp, by rw [hspans]; exact List.mem_append_right _ hsp, hle⟩
            · right
              exact hws
    · rw [if_neg hst] at hloop
      omega

/-- C5 (amended): for a terminating run of `split` with `0 ≤ overlap`,
every offset of the normalized text either falls inside the span of an
emitted window or holds a whitespace character; offsets inside a span
whose stripped content is empty (pure whitespace) are discarded with it
and may fall outside every emitted window's span. -/
theorem C5_coverage (t : String) (chunk_size overlap : Int) (fuel : Nat)
    (spans : List Span) (hov : 0 ≤ overlap)
    (h : smartSplitSpans t chunk_size overlap fuel = .ok (some spans)) :
    ∀ i, i < (normalizeWhitespaceL t.data).length →
      (∃ sp ∈ spans, sp.s ≤ i ∧ i < sp.e) ∨
        isPySpace ((normalizeWhitespaceL t.data).getD i 'x') = true := by
  intro i hi
  unfold smartSplitSpans at h
  by_cases h1 : chunk_size ≤ 0
  · rw [if_pos h1] at h; exact absurd h (by simp)
  · rw [if_neg h1] at h
    by_cases h2 : overlap ≥ chunk_size
    · rw [if_pos h2] at h; exact absurd h (by simp)
    · rw [if_neg h2] at h
      by_cases h3 : (normalizeWhitespaceL t.data).length = 0
      · omega
      · rw [if_neg h3] at h
        simp only [Except.ok.injEq] at h
        exact loop_coverage (normalizeWhitespaceL t.data) chunk_size.toNat overlap hov
          fuel 0 spans h i (Nat.zero_le i) hi

/-- C5 witness: the amended coverage statement at a concrete input and
offset. -/
theorem C5_coverage_witness :
    (∃ sp ∈ [Span.mk 0 2 ['a'], Span.mk 4 6 ['b']], sp.s ≤ 0 ∧ 0 < sp.e) ∨
      isPySpace ((normalizeWhitespaceL "a \n\n  b".data).getD 0 'x') = true :=
  C5_coverage "a \n\n  b" 3 0 10 [Span.mk 0 2 ['a'], Span.mk 4 6 ['b']]
    (by decide) (by decide) 0 (by decide)

/-- C5 counterexample: on `"a \n\n  b"` (normalized to the six characters
`a`, space, newline, newline, space, `b`) with `chunk_size = 3`,
`overlap = 0`, the run terminates with emitted spans `[0, 2)` and `[4, 6)`:
offset 2 of the normalized text falls inside no emitted window's span, so
the claimed full coverage fails (the middle chunk stripped to empty and
was discarded). -/
theorem C5_counterexample :
    smartSplitSpans "a \n\n  b" 3 0 10 =
      .ok (some [Span.mk 0 2 ['a'], Span.mk 4 6 ['b']]) ∧
    (normalizeWhitespaceL "a \n\n  b".data).length = 6 ∧
    ¬ (∃ sp ∈ [Span.mk 0 2 ['a'], Span.mk 4 6 ['b']], sp.s ≤ 2 ∧ 2 < sp.e) := by
  refine ⟨by decide, by decide, by decide⟩

/-! ## C1: aggregation output order -/

theorem insertDesc_head (x : List Char × ℚ) (l : List (List Char × ℚ)) :
    (insertDesc x l).head? = some x ∨ (insertDesc x l).head? = l.head? := by
  cases l with
  | nil => left; rfl
  | cons y ys =>
    by_cases h : x.2 > y.2
    · left; simp [insertDesc, h]
    · right; simp [insertDesc, h]

theorem chain'_insertDesc (x : List Char × ℚ) (l : List (List Char × ℚ))
    (h : List.Chain' (fun a b => b.2 ≤ a.2) l) :
    List.Chain' (fun a b => b.2 ≤ a.2) (insertDesc x l) := by
  induction l with
  | nil => simp [insertDesc]
  | cons y ys ih =>
    by_cases hxy : x.2 > y.2
    · rw [show insertDesc x (y :: ys) = x :: y :: ys by simp [insertDesc, hxy]]
      exact List.Chain'.cons (le_of_lt hxy) h
    · rw [show insertDesc x (y :: ys) = y :: insertDesc x ys by simp [insertDesc, hxy]]
      rw [List.chain'_cons']
      refine ⟨?_, ih (List.Chain'.tail h)⟩
      intro z hz
      rcases insertDesc_head x ys with hh | hh
      · rw [hh] at hz
        simp only [Option.mem_def, Option.some_inj] at hz
        subst hz
        exact le_of_not_lt hxy
      · rw [hh] at hz
        exact (List.chain'_cons'.mp h).1 z hz

theorem chain'_sortByScoreDesc (l : List (List Char × ℚ)) :
    List.Chain' (fun a b => b.2 ≤ a.2) (sortByScoreDesc l) := by
  suffices hgen : ∀ acc, List.Chain' (fun a b => b.2 ≤ a.2) acc →
      List.Chain' (fun a b => b.2 ≤ a.2)
        (l.foldl (fun acc x => insertDesc x acc) acc) by
    exact hgen [] (by simp)
  induction l with
  | nil => intro acc hacc; exact hacc
  | cons x t ih =>
    intro acc hacc
    exact ih _ (chain'_insertDesc x acc hacc)

/-- C1 (amended): the aggregated output is sorted by combined score
descending (adjacent scores are non-increasing); the order of keys with
equal combined scores is the accumulator's key-insertion order, which
depends on input arrival order — not the spec's n-gram-size/lexicographic
tie-break. -/
theorem C1_sorted_by_score (perWindow : List (List (List Char × ℚ)))
    (agg : Agg) (max_keywords : Nat) :
    List.Chain' (fun a b : KeywordResult => b.score ≤ a.score)
      (aggregateCandidates perWindow agg max_keywords) := by
  unfold aggregateCandidates
  exact (List.chain'_map _).mpr
    ((chain'_sortByScoreDesc _).take max_keywords)

/-- C1 counterexample: one window returning `"zz b"` then `"aa"` with
equal scores.  The output keeps insertion order — the 2-gram `"zz b"`
precedes the 1-gram `"aa"` despite the spec's shorter-n-gram tie-break —
and swapping the arrival order of the two candidate lists produces a
different output list, refuting order-determinism under reordering. -/
theorem C1_counterexample :
    (aggregateCandidates [[("zz b".data, (1 : ℚ)), ("aa".data, (1 : ℚ))]] .max 10
      = [⟨"zz b", (1 : ℚ), 2⟩, ⟨"aa", (1 : ℚ), 1⟩]) ∧
    specSortedB (aggregateCandidates
      [[("zz b".data, (1 : ℚ)), ("aa".data, (1 : ℚ))]] .max 10) = false ∧
    aggregateCandidates [[("zz b".data, (1 : ℚ))], [("aa".data, (1 : ℚ))]] .max 10
      ≠ aggregateCandidates [[("aa".data, (1 : ℚ))], [("zz b".data, (1 : ℚ))]] .max 10 := by
  refine ⟨by decide, by decide, by decide⟩

/-! ## C4: combination policies -/

theorem lookup_map_update (acc : List (List Char × List ℚ)) (k : List Char)
    (s : ℚ) (key : List Char) :
    (acc.map (fun p => if p.1 = k then (p.1, p.2 ++ [s]) else p)).lookup key =
      if key = k then (acc.lookup key).map (fun l => l ++ [s])
      else acc.lookup key := by
  induction acc with
  | nil => by_cases h : key = k <;> simp [h]
  | cons p t ih =>
    obtain ⟨p1, p2⟩ := p
    by_cases hp : p1 = k <;> by_cases hkey : key = p1
    · have hk2 : key = k := by rw [hkey, hp]
      have hb : (key == p1) = true := beq_iff_eq.mpr hkey
      simp [List.lookup_cons, hp, hb, hk2]
    · have hk2 : ¬ key = k := by rw [← hp]; exact hkey
      have hb : (key == p1) = false := beq_eq_false_iff_ne.mpr hkey
      have hbk : (key == k) = false := beq_eq_false_iff_ne.mpr hk2
      simp [List.lookup_cons, hp, hb, hbk, hk2, ih]
    · have hk2 : ¬ key = k := by rw [hkey]; exact hp
      have hb : (key == p1) = true := beq_iff_eq.mpr hkey
      simp [List.lookup_cons, hp, hb, hk2]
    · have hb : (key == p1) = false := beq_eq_false_iff_ne.mpr hkey
      simp [List.lookup_cons, hp, hb, ih]

theorem lookup_addCand (acc : List (List Char × List ℚ)) (c : List Char × ℚ)
    (key : List Char) :
    (addCand acc c).lookup key =
      if normKey c.1 = key then
        match acc.lookup key with
        | some l => some (l ++ [c.2])
        | none => some [c.2]
      else acc.lookup key := by
  unfold addCand
  by_cases hsome : (acc.lookup (normKey c.1)).isSome
  · rw [if_pos hsome, lookup_map_update]
    by_cases hk : normKey c.1 = key
    · subst hk
      rw [if_pos rfl, if_pos rfl]
      obtain ⟨l, hl⟩ := Option.isSome_iff_exists.mp hsome
      rw [hl]
      rfl
    · rw [if_neg (fun h => hk h.symm), if_neg hk]
  · rw [if_neg hsome, List.lookup_append]
    by_cases hk : normKey c.1 = key
    · subst hk
      rw [if_pos rfl]
      have hnone : acc.lookup (normKey c.1) = none :=
        Option.not_isSome_iff_eq_none.mp hsome
      rw [hnone]
      simp [List.lookup_cons]
    · rw [if_neg hk]
      have hb : (key == normKey c.1) = false := by
        rw [beq_eq_false_iff_ne]
        exact fun h => hk h.symm
      have h2 : List.lookup key [(normKey c.1, [c.2])] = none := by
        rw [List.lookup_cons, hb]
        rfl
      rw [h2]
      cases acc.lookup key <;> rfl

theorem lookup_foldl_addCand (cands : List (List Char × ℚ)) :
    ∀ acc key, ((cands.foldl addCand acc).lookup key) =
      joinOpt (acc.lookup key) (scoresOf key cands) := by
  induction cands with
  | nil =>
    intro acc key
    show acc.lookup key = joinOpt (acc.lookup key) []
    cases acc.lookup key <;> simp [joinOpt]
  | cons c t ih =>
    intro acc key
    show ((t.foldl addCand (addCand acc c)).lookup key) = _
    rw [ih (addCand acc c) key, lookup_addCand]
    by_cases hk : normKey c.1 = key
    · rw [if_pos hk]
      have hsc : scoresOf key (c :: t) = c.2 :: scoresOf key t := by
        simp [scoresOf, List.filterMap_cons, hk]
      rw [hsc]
      cases hacc : acc.lookup key with
      | some l => simp [joinOpt]
      | none => cases hsct : scoresOf key t <;> simp [joinOpt]
    · rw [if_neg hk]
      have hsc : scoresOf key (c :: t) = scoresOf key t := by
        simp [scoresOf, List.filterMap_cons, hk]
      rw [hsc]

theorem accumulate_lookup (perWindow : List (List (List Char × ℚ)))
    (key : List Char) :
    (accumulate perWindow).lookup key =
      joinOpt none (observedScores perWindow key) := by
  unfold accumulate
  rw [lookup_foldl_addCand]
  rfl

theorem addCand_keys (acc : List (List Char × List ℚ)) (c : List Char × ℚ) :
    (addCand acc c).map Prod.fst = acc.map Prod.fst ∨
      (addCand acc c).map Prod.fst = acc.map Prod.fst ++ [normKey c.1] := by
  unfold addCand
  by_cases hsome : (acc.lookup (normKey c.1)).isSome
  · left
    rw [if_pos hsome, List.map_map]
    apply List.map_congr_left
    intro p _
    by_cases hp : p.1 = normKey c.1 <;> simp [hp]
  · right
    rw [if_neg hsome]
    simp

theorem lookup_eq_none_not_mem (acc : List (List Char × List ℚ)) (k : List Char)
    (h : acc.lookup k = none) : k ∉ acc.map Prod.fst := by
  induction acc with
  | nil => simp
  | cons p t ih =>
    intro hmem
    rcases List.mem_cons.mp hmem with h1 | h1
    · rw [List.lookup_cons] at h
      simp [beq_iff_eq, h1] at h
    · rw [List.lookup_cons] at h
      rcases hbeq : (k == p.1) with _ | _
      · rw [hbeq] at h
        exact ih (by simpa using h) h1
      · rw [hbeq] at h
        simp at h

theorem addCand_nodup_keys (acc : List (List Char × List ℚ)) (c : List Char × ℚ)
    (h : (acc.map Prod.fst).Nodup) : ((addCand acc c).map Prod.fst).Nodup := by
  rcases addCand_keys acc c with hk | hk
  · rw [hk]; exact h
  · rw [hk, List.nodup_append]
    refine ⟨h, List.nodup_singleton _, ?_⟩
    intro a ha hb
    rcases List.mem_singleton.mp hb with rfl
    have hnone : acc.lookup (normKey c.1) = none := by
      by_contra hcon
      have hsome : (acc.lookup (normKey c.1)).isSome := by
        cases hl : acc.lookup (normKey c.1)
        · exact absurd hl hcon
        · simp
      unfold addCand at hk
      rw [if_pos hsome, List.map_map] at hk
      have hlen := congrArg List.length hk
      simp at hlen
    exact lookup_eq_none_not_mem acc (normKey c.1) hnone ha

theorem accumulate_nodup_keys (perWindow : List (List (List Char × ℚ))) :
    ((accumulate perWindow).map Prod.fst).Nodup := by
  unfold accumulate
  suffices hgen : ∀ (cands : List (List Char × ℚ)) (acc : List (List Char × List ℚ)),
      (acc.map Prod.fst).Nodup → ((cands.foldl addCand acc).map Prod.fst).Nodup by
    exact hgen _ [] (by simp)
  intro cands
  induction cands with
  | nil => intro acc h; exact h
  | cons c t ih => intro acc h; exact ih _ (addCand_nodup_keys acc c h)

theorem mem_lookup_of_nodup : ∀ (acc : List (List Char × List ℚ)),
    (acc.map Prod.fst).Nodup → ∀ p ∈ acc, acc.lookup p.1 = some p.2 := by
  intro acc
  induction acc with
  | nil => intro _ p hp; cases hp
  | cons q t ih =>
    intro hnd p hp
    obtain ⟨q1, q2⟩ := q
    rw [List.map_cons] at hnd
    obtain ⟨hq1, hnd2⟩ := List.nodup_cons.mp hnd
    rcases List.mem_cons.mp hp with h1 | h1
    · subst h1
      rw [List.lookup_cons]
      simp
    · have hne : p.1 ≠ q1 := by
        intro he
        have hm := List.mem_map_of_mem Prod.fst h1
        rw [he] at hm
        exact hq1 hm
      have hb : (p.1 == q1) = false := beq_eq_false_iff_ne.mpr hne
      rw [List.lookup_cons, hb]
      exact ih hnd2 p h1

theorem accumulate_values_ne_nil (perWindow : List (List (List Char × ℚ)))
    (p : List Char × List ℚ) (hp : p ∈ accumulate perWindow) : p.2 ≠ [] := by
  unfold accumulate at hp
  suffices hgen : ∀ (cands : List (List Char × ℚ)) (acc : List (List Char × List ℚ)),
      (∀ q ∈ acc, q.2 ≠ []) → ∀ q ∈ cands.foldl addCand acc, q.2 ≠ [] by
    exact hgen _ [] (by simp) p hp
  intro cands
  induction cands with
  | nil => intro acc h; exact h
  | cons c t ih =>
    intro acc h
    apply ih
    intro q hq
    unfold addCand at hq
    by_cases hsome : (acc.lookup (normKey c.1)).isSome
    · rw [if_pos hsome] at hq
      obtain ⟨w, hw, hwq⟩ := List.mem_map.mp hq
      by_cases hwk : w.1 = normKey c.1
      · rw [if_pos hwk] at hwq
        rw [← hwq]
        simp
      · rw [if_neg hwk] at hwq
        exact hwq ▸ h w hw
    · rw [if_neg hsome] at hq
      rcases List.mem_append.mp hq with h1 | h1
      · exact h q h1
      · rcases List.mem_singleton.mp h1 with rfl
        simp

theorem mem_insertDesc (x y : List Char × ℚ) (l : List (List Char × ℚ)) :
    y ∈ insertDesc x l ↔ y = x ∨ y ∈ l := by
  induction l with
  | nil => simp [insertDesc]
  | cons z zs ih =>
    by_cases h : x.2 > z.2
    · simp [insertDesc, h]
    · simp only [insertDesc, if_neg h, List.mem_cons, ih]
      tauto

theorem mem_sortByScoreDesc (y : List Char × ℚ) (l : List (List Char × ℚ)) :
    y ∈ sortByScoreDesc l ↔ y ∈ l := by
  unfold sortByScoreDesc
  suffices hgen : ∀ acc, y ∈ l.foldl (fun acc x => insertDesc x acc) acc ↔
      y ∈ acc ∨ y ∈ l by
    simpa using hgen []
  induction l with
  | nil => intro acc; simp
  | cons x t ih =>
    intro acc
    rw [List.foldl_cons, ih (insertDesc x acc), mem_insertDesc]
    simp only [List.mem_cons]
    tauto

theorem foldl_max_mem (h : ℚ) (t : List ℚ) : t.foldl Max.max h ∈ h :: t := by
  induction t generalizing h with
  | nil => simp
  | cons a t ih =>
    rw [List.foldl_cons]
    rcases List.mem_cons.mp (ih (Max.max h a)) with h1 | h1
    · rw [h1]
      rcases max_choice h a with hm | hm <;> rw [hm]
      · exact List.mem_cons_self _ _
      · exact List.mem_cons_of_mem _ (List.mem_cons_self _ _)
    · exact List.mem_cons_of_mem _ (List.mem_cons_of_mem _ h1)

theorem le_foldl_max (h : ℚ) (t : List ℚ) : ∀ x ∈ h :: t, x ≤ t.foldl Max.max h := by
  induction t generalizing h with
  | nil =>
    intro x hx
    rcases List.mem_cons.mp hx with rfl | h1
    · exact le_refl _
    · cases h1
  | cons a t ih =>
    intro x hx
    rw [List.foldl_cons]
    rcases List.mem_cons.mp hx with rfl | h1
    · exact le_trans (le_max_left x a) (ih _ _ (List.mem_cons_self _ _))
    · rcases List.mem_cons.mp h1 with rfl | h2
      · exact le_trans (le_max_right h x) (ih _ _ (List.mem_cons_self _ _))
      · exact ih _ _ (List.mem_cons_of_mem _ h2)

/-- C4: every aggregated entry's combined score is the policy function of
exactly the scores observed for its merge key across all windows: the
maximum under `max`, the arithmetic mean under `mean`, the sum under
`sum`. -/
theorem C4_combination_policies (perWindow : List (List (List Char × ℚ)))
    (agg : Agg) (max_keywords : Nat) (r : KeywordResult)
    (hr : r ∈ aggregateCandidates perWindow agg max_keywords) :
    observedScores perWindow r.keyword.data ≠ [] ∧
    (agg = .max → r.score ∈ observedScores perWindow r.keyword.data ∧
      ∀ s ∈ observedScores perWindow r.keyword.data, s ≤ r.score) ∧
    (agg = .mean → r.score = (observedScores perWindow r.keyword.data).sum /
      ((observedScores perWindow r.keyword.data).length : ℚ)) ∧
    (agg = .sum → r.score = (observedScores perWindow r.keyword.data).sum) := by
  unfold aggregateCandidates at hr
  obtain ⟨q, hq, hrq⟩ := List.mem_map.mp hr
  have hq2 : q ∈ sortByScoreDesc ((accumulate perWindow).map
      (fun p => (p.1, combine agg p.2))) := List.mem_of_mem_take hq
  rw [mem_sortByScoreDesc] at hq2
  obtain ⟨p, hp, hpq⟩ := List.mem_map.mp hq2
  have hkey : r.keyword.data = p.1 := by
    rw [← hrq, ← hpq]
  have hscore : r.score = combine agg p.2 := by
    rw [← hrq, ← hpq]
  have hlook : (accumulate perWindow).lookup p.1 = some p.2 :=
    mem_lookup_of_nodup _ (accumulate_nodup_keys perWindow) p hp
  have hobs : observedScores perWindow p.1 = p.2 := by
    rw [accumulate_lookup] at hlook
    cases hcase : observedScores perWindow p.1 with
    | nil => rw [hcase] at hlook; exact absurd hlook (by simp [joinOpt])
    | cons a s =>
      rw [hcase] at hlook
      simpa [joinOpt] using hlook
  have hne : p.2 ≠ [] := accumulate_values_ne_nil perWindow p hp
  rw [hkey, hobs]
  refine ⟨hne, ?_, ?_, ?_⟩
  · rintro rfl
    rw [hscore]
    cases hp2 : p.2 with
    | nil => exact absurd hp2 hne
    | cons h t =>
      constructor
      · exact foldl_max_mem h t
      · exact le_foldl_max h t
  · rintro rfl
    rw [hscore]
    cases hp2 : p.2 with
    | nil => exact absurd hp2 hne
    | cons h t => rfl
  · rintro rfl
    rw [hscore]
    cases hp2 : p.2 with
    | nil => exact absurd hp2 hne
    | cons h t => rfl

/-- C4 witness: the spec's three-window example with scores
`[0.2, 0.9, 0.5]` for one keyword, under policy `max`: the aggregated
entry `("kw", 0.9)` is an element of `aggregate`'s output and its score
is the maximum of the observed scores. -/
theorem C4_combination_policies_witness :
    observedScores [[("kw".data, mkRat 1 5)], [("kw".data, mkRat 9 10)],
      [("kw".data, mkRat 1 2)]] ("kw".data) ≠ [] ∧
    (Agg.max = Agg.max → mkRat 9 10 ∈ observedScores
      [[("kw".data, mkRat 1 5)], [("kw".data, mkRat 9 10)],
        [("kw".data, mkRat 1 2)]] ("kw".data) ∧
      ∀ s ∈ observedScores [[("kw".data, mkRat 1 5)], [("kw".data, mkRat 9 10)],
        [("kw".data, mkRat 1 2)]] ("kw".data), s ≤ mkRat 9 10) ∧
    (Agg.max = Agg.mean → mkRat 9 10 = (observedScores
      [[("kw".data, mkRat 1 5)], [("kw".data, mkRat 9 10)],
        [("kw".data, mkRat 1 2)]] ("kw".data)).sum /
      ((observedScores [[("kw".data, mkRat 1 5)], [("kw".data, mkRat 9 10)],
        [("kw".data, mkRat 1 2)]] ("kw".data)).length : ℚ)) ∧
    (Agg.max = Agg.sum → mkRat 9 10 = (observedScores
      [[("kw".data, mkRat 1 5)], [("kw".data, mkRat 9 10)],
        [("kw".data, mkRat 1 2)]] ("kw".data)).sum) :=
  C4_combination_policies
    [[("kw".data, mkRat 1 5)], [("kw".data, mkRat 9 10)], [("kw".data, mkRat 1 2)]]
    .max 10 ⟨"kw", mkRat 9 10, 1⟩ (by decide)

/-! ## C6: n-gram range validation -/

/-- C6 (amended): a request supplying the pair field `ngram_range` with
`min > max` is rejected by validation before extraction, but a request
supplying the separate `min_ngram`/`max_ngram` fields with
`min_ngram > max_ngram` is silently repaired by swapping the two values
and extraction proceeds. -/
theorem C6_ngram_validation :
    (∀ (a b : Nat) (mn mx : Option Nat),
      (∃ p, requestNgramOutcome (some (a, b)) mn mx = .ok p) ↔ a ≤ b) ∧
    (∀ mn mx : Nat, mn > mx →
      requestNgramOutcome none (some mn) (some mx) = .ok (mx, mn)) := by
  constructor
  · intro a b mn mx
    by_cases h : a > b
    · simp [requestNgramOutcome, validate_ngram_range, h, Except.map]
    · simp [requestNgramOutcome, validate_ngram_range, h, Except.map]
      omega
  · intro mn mx h
    simp [requestNgramOutcome, validate_ngram_range, deriveNgramRange, h,
      Except.map]

/-- C6 witness: concrete instances of both halves of the amended claim. -/
theorem C6_ngram_validation_witness :
    ((∃ p, requestNgramOutcome (some (3, 1)) none none = .ok p) ↔ 3 ≤ 1) ∧
    requestNgramOutcome none (some 3) (some 1) = .ok (1, 3) :=
  ⟨C6_ngram_validation.1 3 1 none none, C6_ngram_validation.2 3 1 (by decide)⟩

/-- C6 counterexample: a request with `min_ngram = 3 > max_ngram = 1`
(and no `ngram_range` pair) does not raise a configuration error: the
system silently repairs the range to `(1, 3)` and proceeds. -/
theorem C6_counterexample :
    requestNgramOutcome none (some 3) (some 1) = .ok (1, 3) := by decide

/-! ## C9: title weighting -/

/-- C9: the title-weighting step of `extract` computes exactly the spec's
formula: unchanged text when the config is absent or its title text is
empty, otherwise `(title.trim() + "\n")` repeated
`max(1, ceil(normalize ? clamp(weight, 1, 5) : weight))` times, prefixed
to the original text. -/
theorem C9_title_weighting (text : String) (config : Option TitleConfig) :
    titleStep text config = (specTitleWeighted text config).1 := by
  cases config with
  | none => rfl
  | some c =>
    by_cases hc : c.text = ""
    · simp [titleStep, apply_title_weighting, specTitleWeighted, hc]
    · simp [titleStep, apply_title_weighting, specTitleWeighted, hc]

/-! ## C10: case-folded keywords in chunked mode -/

theorem accumulate_key_from_candidate (perWindow : List (List (List Char × ℚ)))
    (p : List Char × List ℚ) (hp : p ∈ accumulate perWindow) :
    ∃ c ∈ perWindow.flatten, p.1 = normKey c.1 := by
  have hlook : (accumulate perWindow).lookup p.1 = some p.2 :=
    mem_lookup_of_nodup _ (accumulate_nodup_keys perWindow) p hp
  rw [accumulate_lookup] at hlook
  cases hobs : observedScores perWindow p.1 with
  | nil => rw [hobs] at hlook; exact absurd hlook (by simp [joinOpt])
  | cons a s =>
    have hne : observedScores perWindow p.1 ≠ [] := by rw [hobs]; simp
    unfold observedScores at hne
    by_contra hcon
    push_neg at hcon
    apply hne
    rw [List.filterMap_eq_nil_iff]
    intro c hc
    rw [if_neg (fun he => hcon c hc he.symm)]

/-- C10: in chunked mode every final keyword string is the case-folded and
trimmed merge key of some scorer-returned candidate (the original surface
form is discarded), whereas in single-window mode the keyword strings are
exactly the scorer's output strings. -/
theorem C10_chunked_casefolds (scorer : Scorer) :
    (∀ (chunks : List String) (k : Nat) (agg : Agg) (cpm : ℚ)
      (r : KeywordResult), r ∈ extract_from_chunks scorer chunks k agg cpm →
      ∃ c ∈ (chunks.map (fun ch => scorer ch (perChunkTopN k cpm))).flatten,
        r.keyword.data = pyStripL (pyLowerL c.1.data)) ∧
    (∀ (text : String) (k : Nat),
      (extract_single scorer text k).map KeywordResult.keyword =
        (scorer text k).map Prod.fst) := by
  constructor
  · intro chunks k agg cpm r hr
    unfold extract_from_chunks aggregateCandidates at hr
    obtain ⟨q, hq, hrq⟩ := List.mem_map.mp hr
    have hq2 := List.mem_of_mem_take hq
    rw [mem_sortByScoreDesc] at hq2
    obtain ⟨p, hp, hpq⟩ := List.mem_map.mp hq2
    obtain ⟨c, hc, hck⟩ := accumulate_key_from_candidate _ p hp
    obtain ⟨lst, hlst, hclst⟩ := List.mem_flatten.mp hc
    obtain ⟨ch, hch, hchl⟩ := List.mem_map.mp hlst
    rw [← hchl] at hclst
    obtain ⟨c0, hc0, hc0c⟩ := List.mem_map.mp hclst
    refine ⟨c0, ?_, ?_⟩
    · exact List.mem_flatten.mpr ⟨scorer ch (perChunkTopN k cpm),
        List.mem_map_of_mem _ hch, hc0⟩
    · have hkd : r.keyword.data = p.1 := by rw [← hrq, ← hpq]
      rw [hkd, hck, ← hc0c]
      rfl
  · intro text k
    unfold extract_single
    rw [List.map_map]
    rfl

/-- C10 witness: a scorer returning the mixed-case `"Berlin"`.  In chunked
mode the emitted keyword is the folded key `"berlin"`, whose surface form
is obtained by lowercasing and stripping the scorer's candidate; in
single-window mode the keyword stays `"Berlin"` verbatim. -/
theorem C10_chunked_casefolds_witness :
    (∃ c ∈ ((["some text"] : List String).map
        (fun ch => (fun (_ : String) (_ : Nat) => [("Berlin", (1 : ℚ))]) ch
          (perChunkTopN 5 3))).flatten,
      (⟨"berlin", (1 : ℚ), 1⟩ : KeywordResult).keyword.data =
        pyStripL (pyLowerL c.1.data)) ∧
    (extract_single (fun _ _ => [("Berlin", (1 : ℚ))]) "some text" 5).map
      KeywordResult.keyword = ["Berlin"] :=
  ⟨(C10_chunked_casefolds (fun _ _ => [("Berlin", (1 : ℚ))])).1
      ["some text"] 5 .max 3 ⟨"berlin", (1 : ℚ), 1⟩ (by decide),
    (C10_chunked_casefolds (fun _ _ => [("Berlin", (1 : ℚ))])).2 "some text" 5⟩

/-! ## C8: page-limit truncation -/

/-- C8 (amended): when the estimated page count of the (title-weighted)
text exceeds `max_pages`, `extract` truncates the text to exactly
`max_pages * approx_chars_per_page` characters and completes normally —
but no truncation flag is recorded: the response is identical to that of
the corresponding request carrying the pre-truncated text, except for the
echoed `text_length` field. -/
theorem C8_truncation (scorer : Scorer) (req : Request) (fuel : Nat)
    (hacpp : 1 ≤ req.chunking.approx_chars_per_page)
    (hover : estimate_pages (weightedText req).length
      req.chunking.approx_chars_per_page > (req.chunking.max_pages : ℚ)) :
    (truncatedText req).length =
      req.chunking.max_pages * req.chunking.approx_chars_per_page ∧
    extract scorer req fuel =
      (extract scorer { req with text := truncatedText req, title_config := none }
        fuel).map (Option.map (fun r => { r with text_length := req.text.length })) := by
  have hmax : max req.chunking.approx_chars_per_page 1 =
      req.chunking.approx_chars_per_page := by omega
  have hgt : (weightedText req).length >
      req.chunking.max_pages * req.chunking.approx_chars_per_page := by
    unfold estimate_pages at hover
    rw [hmax] at hover
    have hpos : (0 : ℚ) < (req.chunking.approx_chars_per_page : ℚ) := by
      exact_mod_cast Nat.lt_of_lt_of_le Nat.zero_lt_one hacpp
    rw [gt_iff_lt, lt_div_iff hpos] at hover
    exact_mod_cast hover
  have htr : truncatedText req = String.mk ((weightedText req).data.take
      (req.chunking.max_pages * req.chunking.approx_chars_per_page)) := by
    unfold truncatedText
    simp only [hover, if_pos]
  have hlen1 : (truncatedText req).length =
      req.chunking.max_pages * req.chunking.approx_chars_per_page := by
    rw [htr]
    show ((weightedText req).data.take _).length = _
    rw [List.length_take]
    have : (weightedText req).length = (weightedText req).data.length := rfl
    omega
  refine ⟨hlen1, ?_⟩
  have hwB : weightedText { req with text := truncatedText req, title_config := none }
      = truncatedText req := rfl
  have hpB : estimate_pages (truncatedText req).length
      req.chunking.approx_chars_per_page = (req.chunking.max_pages : ℚ) := by
    rw [hlen1]
    unfold estimate_pages
    rw [hmax]
    have hne : (req.chunking.approx_chars_per_page : ℚ) ≠ 0 :=
      Nat.cast_ne_zero.mpr (by omega)
    push_cast
    rw [mul_div_assoc, div_self hne, mul_one]
  have htB : truncatedText { req with text := truncatedText req, title_config := none }
      = truncatedText req := by
    set T := truncatedText req with hT
    simp only [truncatedText]
    rw [show weightedText { req with text := T, title_config := none } = T from rfl]
    rw [hpB]
    simp
  simp only [extract, htB]
  by_cases hc : req.chunking.enable_chunking ∧
      (truncatedText req).length > req.chunking.chunk_size_chars
  · rw [if_pos hc, if_pos hc]
    rcases hsp : smart_split (truncatedText req) req.chunking.chunk_size_chars
        req.chunking.chunk_overlap_chars fuel with e | o
    · rfl
    · rcases o with _ | chunks <;> rfl
  · rw [if_neg hc, if_neg hc]
    rfl

set_option maxRecDepth 8000 in
/-- C8 witness: the concrete 501-character request — the truncated length
is exactly `max_pages * approx_chars_per_page = 500` and the response only
differs from the pre-truncated request's response in `text_length`. -/
theorem C8_truncation_witness :
    (truncatedText longRequest).length =
      longRequest.chunking.max_pages * longRequest.chunking.approx_chars_per_page ∧
    extract nullScorer longRequest 1 =
      (extract nullScorer
        { longRequest with text := truncatedText longRequest, title_config := none }
        1).map
        (Option.map (fun r => { r with text_length := longRequest.text.length })) :=
  C8_truncation nullScorer longRequest 1 (by decide)
    (by
      have h1 : (weightedText longRequest).length = 501 := rfl
      rw [h1]
      show (501 : ℚ) / (max 500 1 : Nat) > 1
      norm_num)

set_option maxRecDepth 8000 in
/-- C8 counterexample: the oversize request is truncated (to 500 of its
501 characters) and completes normally, but its response records no
truncation flag: the metadata (and keywords) are identical to those of
the request that was never truncated — only the echoed `text_length`
differs — so the truncation is not "recorded as a metadata flag". -/
theorem C8_counterexample :
    (truncatedText longRequest).length = 500 ∧
    (∃ ra rb, extract nullScorer longRequest 1 = .ok (some ra) ∧
      extract nullScorer truncRequest 1 = .ok (some rb) ∧
      ra.processing_metadata = rb.processing_metadata ∧
      ra.keywords = rb.keywords ∧
      ra.text_length = 501 ∧ rb.text_length = 500) := by
  have htake : (String.mk (List.replicate 501 'a')).data.take 500 =
      List.replicate 500 'a' := by
    show (List.replicate 501 'a').take 500 = _
    rw [List.take_replicate]
    norm_num
  have htrA : truncatedText longRequest = String.mk (List.replicate 500 'a') := by
    unfold truncatedText
    have hcond : estimate_pages (weightedText longRequest).length
        longRequest.chunking.approx_chars_per_page >
        (longRequest.chunking.max_pages : ℚ) := by
      have h1 : (weightedText longRequest).length = 501 := rfl
      rw [h1]
      show (501 : ℚ) / (max 500 1 : Nat) > 1
      norm_num
    simp only [hcond, if_pos]
    rw [show longRequest.chunking.max_pages *
      longRequest.chunking.approx_chars_per_page = 500 from rfl]
    rw [show weightedText longRequest = String.mk (List.replicate 501 'a') from rfl]
    rw [htake]
  have htrB : truncatedText truncRequest = String.mk (List.replicate 500 'a') := by
    unfold truncatedText
    have hcond : ¬ (estimate_pages (weightedText truncRequest).length
        truncRequest.chunking.approx_chars_per_page >
        (truncRequest.chunking.max_pages : ℚ)) := by
      have h1 : (weightedText truncRequest).length = 500 := rfl
      rw [h1]
      show ¬ ((500 : ℚ) / (max 500 1 : Nat) > 1)
      norm_num
    simp only [hcond, if_neg]
    rfl
  refine ⟨by rw [htrA]; rfl, ?_⟩
  have hA : extract nullScorer longRequest 1 =
      .ok (some
        { request_id := none, keywords := [], total_keywords_found := 0,
          text_length := 501, language := .en,
          processing_metadata := some
            { text_type := "generic", use_mmr := true,
              diversity := 1, ngram_range := (1, 2), stop_words := some "english",
              chunking_enabled := false,
              approx_pages := estimate_pages 500 500,
              chunk_size_chars := 1200, chunk_overlap_chars := 200,
              aggregation := .max } }) := by
    simp only [extract, htrA]
    rw [if_neg (fun h => nomatch h.1)]
    rfl
  have hB : extract nullScorer truncRequest 1 =
      .ok (some
        { request_id := none, keywords := [], total_keywords_found := 0,
          text_length := 500, language := .en,
          processing_metadata := some
            { text_type := "generic", use_mmr := true,
              diversity := 1, ngram_range := (1, 2), stop_words := some "english",
              chunking_enabled := false,
              approx_pages := estimate_pages 500 500,
              chunk_size_chars := 1200, chunk_overlap_chars := 200,
              aggregation := .max } }) := by
    simp only [extract, htrB]
    rw [if_neg (fun h => nomatch h.1)]
    rfl
  exact ⟨_, _, hA, hB, rfl, rfl, rfl, rfl⟩

end Sequel
